/-
Verification of the KATS automated stock-trading system (kats/…) against its
natural-language specification.

Each Python module relevant to the checked claims is shallowly embedded:
pure arithmetic is translated to `ℚ`/`ℤ` (Python floats are modelled as exact
rationals, Python `int(x)` as truncation toward zero, `round(x, 2)` as
round-half-to-even at two decimals, `//` as flooring division), Python dicts
are modelled as insertion-ordered association lists, and methods that mutate
`self` become functions from state to state.  Exceptions are modelled with
`Option` (`none` = the call raised and, per the source, raised before any
mutation).  String identifiers (stock codes, strategy codes, order ids) are
abstracted to `ℕ`; they are only ever compared for equality.
-/

import Mathlib

namespace Kats

/-! ## Python arithmetic helpers -/

/-- Python `int(x)` on a float/rational: truncation toward zero. -/
def intTrunc (x : ℚ) : ℤ := if 0 ≤ x then ⌊x⌋ else ⌈x⌉

/-- Round-half-to-even on a rational, as Python's builtin `round`. -/
def roundHalfEven (y : ℚ) : ℤ :=
  if y - ⌊y⌋ < 1/2 then ⌊y⌋
  else if 1/2 < y - ⌊y⌋ then ⌊y⌋ + 1
  else if ⌊y⌋ % 2 = 0 then ⌊y⌋ else ⌊y⌋ + 1

/-- Python `round(x, 2)`: round-half-to-even at two decimal places. -/
def pyRound2 (x : ℚ) : ℚ := (roundHalfEven (x * 100) : ℚ) / 100

theorem intTrunc_of_nonneg {x : ℚ} (h : 0 ≤ x) : intTrunc x = ⌊x⌋ := by
  simp [intTrunc, h]

theorem fdiv_eq_floor (a b : ℤ) (hb : 0 < b) :
    Int.fdiv a b = ⌊(a : ℚ) / (b : ℚ)⌋ := by
  lift b to ℕ using hb.le
  rw [Int.fdiv_eq_ediv _ (Int.ofNat_nonneg _)]
  have hcast : ((b : ℤ) : ℚ) = ((b : ℕ) : ℚ) := by push_cast; ring
  rw [hcast, Rat.floor_intCast_div_natCast]

/-! ## Association lists (Python `dict` with insertion order) -/

/-- `d.get(k)`: value of the first (unique, for dict-built lists) entry. -/
def alGet {β : Type} (k : ℕ) : List (ℕ × β) → Option β
  | [] => none
  | (k', v) :: t => if k' = k then some v else alGet k t

/-- `d[k] = v`: update in place if the key exists, else append at the end. -/
def alUpd {β : Type} (k : ℕ) (v : β) : List (ℕ × β) → List (ℕ × β)
  | [] => [(k, v)]
  | (k', v') :: t => if k' = k then (k', v) :: t else (k', v') :: alUpd k v t

/-- `d.pop(k)`/`del d[k]`: remove the first entry with the key. -/
def alErase {β : Type} (k : ℕ) : List (ℕ × β) → List (ℕ × β)
  | [] => []
  | (k', v') :: t => if k' = k then t else (k', v') :: alErase k t

@[simp] theorem alGet_alUpd_self {β : Type} (k : ℕ) (v : β) (l : List (ℕ × β)) :
    alGet k (alUpd k v l) = some v := by
  induction l with
  | nil => simp [alGet, alUpd]
  | cons hd t ih =>
    by_cases h : hd.1 = k <;> simp [alGet, alUpd, h, ih]

theorem alErase_alUpd_of_not_mem {β : Type} (k : ℕ) (v : β) (l : List (ℕ × β))
    (h : alGet k l = none) : alErase k (alUpd k v l) = l := by
  induction l with
  | nil => simp [alErase, alUpd]
  | cons hd t ih =>
    by_cases hk : hd.1 = k
    · simp [alGet, hk] at h
    · simp only [alGet, hk, if_false] at h
      simp [alUpd, alErase, hk, ih h]

theorem alUpd_self_of_get {β : Type} (k : ℕ) (v : β) (l : List (ℕ × β))
    (h : alGet k l = some v) : alUpd k v l = l := by
  induction l with
  | nil => simp [alGet] at h
  | cons hd t ih =>
    obtain ⟨k', v'⟩ := hd
    by_cases hk : k' = k
    · subst hk
      simp only [alGet, if_pos rfl] at h
      injection h with h
      simp [alUpd, h]
    · simp only [alGet, if_neg hk] at h
      simp [alUpd, hk, ih h]

theorem alUpd_alUpd_self {β : Type} (k : ℕ) (v w : β) (l : List (ℕ × β)) :
    alUpd k w (alUpd k v l) = alUpd k w l := by
  induction l with
  | nil => simp [alUpd]
  | cons hd t ih =>
    by_cases hk : hd.1 = k <;> simp [alUpd, hk, ih]

theorem mem_alUpd {β : Type} {k : ℕ} {v : β} {l : List (ℕ × β)} {p : ℕ × β}
    (hp : p ∈ alUpd k v l) : p = (k, v) ∨ p ∈ l := by
  induction l with
  | nil => simpa [alUpd] using hp
  | cons hd t ih =>
    obtain ⟨k', v'⟩ := hd
    by_cases hk : k' = k
    · subst hk
      rw [alUpd, if_pos rfl] at hp
      rcases List.mem_cons.mp hp with h | h
      · exact Or.inl h
      · exact Or.inr (List.mem_cons_of_mem _ h)
    · simp only [alUpd, if_neg hk, List.mem_cons] at hp
      rcases hp with h | h
      · exact Or.inr (by simp [h])
      · rcases ih h with h' | h'
        · exact Or.inl h'
        · exact Or.inr (List.mem_cons_of_mem _ h')

theorem mem_alErase {β : Type} {k : ℕ} {l : List (ℕ × β)} {p : ℕ × β}
    (hp : p ∈ alErase k l) : p ∈ l := by
  induction l with
  | nil => simp [alErase] at hp
  | cons hd t ih =>
    obtain ⟨k', v'⟩ := hd
    by_cases hk : k' = k
    · simp only [alErase, if_pos hk] at hp
      exact List.mem_cons_of_mem _ hp
    · simp only [alErase, if_neg hk, List.mem_cons] at hp
      rcases hp with h | h
      · simp [h]
      · exact List.mem_cons_of_mem _ (ih h)

theorem alGet_mem {β : Type} {k : ℕ} {v : β} {l : List (ℕ × β)}
    (h : alGet k l = some v) : (k, v) ∈ l := by
  induction l with
  | nil => simp [alGet] at h
  | cons hd t ih =>
    obtain ⟨k', v'⟩ := hd
    by_cases hk : k' = k
    · subst hk
      rw [alGet, if_pos rfl] at h
      injection h with h
      subst h
      exact List.mem_cons_self _ _
    · simp only [alGet, if_neg hk] at h
      exact List.mem_cons_of_mem _ (ih h)

/-! ## Order state machine (`kats/order/order_state_machine.py`) -/

/-- `OrderState` enum. -/
inductive OrderState where
  | created
  | submitted
  | partialFilled
  | filled
  | cancelRequested
  | cancelled
  | amendRequested
  | rejected
  | expired
  | error
deriving DecidableEq, Repr

/-- `_TERMINAL_STATES`. -/
def isTerminal : OrderState → Bool
  | .filled => true
  | .cancelled => true
  | .rejected => true
  | .expired => true
  | .error => true
  | _ => false

/-- `VALID_TRANSITIONS[s]` (missing key = no outgoing transitions). -/
def allowedTargets : OrderState → List OrderState
  | .created => [.submitted, .rejected]
  | .submitted => [.partialFilled, .filled, .cancelRequested, .rejected, .error]
  | .partialFilled => [.filled, .cancelRequested, .amendRequested]
  | .cancelRequested => [.cancelled, .filled]
  | .amendRequested => [.submitted, .rejected]
  | _ => []

/-- The tracked per-order data relevant to the claims: current state and the
states of the history entries, in order. -/
structure Order where
  state : OrderState
  history : List OrderState
deriving DecidableEq, Repr

/-- `create_order`: a fresh order in CREATED state with one history entry. -/
def createOrder : Order := ⟨.created, [.created]⟩

/-- `OrderStateMachine.transition`.  `none` models the `InvalidStateTransition`
exception, which the source raises before any mutation of the order. -/
def transition (o : Order) (s : OrderState) : Option Order :=
  if isTerminal o.state then none
  else if s ∈ allowedTargets o.state then some ⟨s, o.history ++ [s]⟩
  else none

/-- A sequence of `transition` calls; a call that raises leaves the order as
the machine stored it. -/
def applyCalls (o : Order) (calls : List OrderState) : Order :=
  calls.foldl (fun acc s => (transition acc s).getD acc) o

/-- The history is a path through the allowed-edge set: every consecutive pair
`(a, b)` has `a` non-terminal and `b` among `a`'s allowed targets. -/
def chainOk : List OrderState → Bool
  | [] => true
  | [_] => true
  | a :: b :: rest => (!isTerminal a && decide (b ∈ allowedTargets a)) && chainOk (b :: rest)

/-- Valid history: starts at CREATED and follows the transition graph. -/
def historyOk (h : List OrderState) : Bool :=
  decide (h.head? = some .created) && chainOk h

theorem chainOk_append {h : List OrderState} {a b : OrderState}
    (hc : chainOk h = true) (hl : h.getLast? = some a)
    (ht : isTerminal a = false) (hab : b ∈ allowedTargets a) :
    chainOk (h ++ [b]) = true := by
  induction h with
  | nil => simp at hl
  | cons x t ih =>
    cases t with
    | nil =>
      have hx : x = a := by simpa using hl
      subst hx
      simp [chainOk, ht, hab]
    | cons y u =>
      have hc' : ((!isTerminal x && decide (y ∈ allowedTargets x)) = true) ∧
          chainOk (y :: u) = true := by simpa [chainOk] using hc
      have hl' : (y :: u).getLast? = some a := by
        simpa [List.getLast?_cons_cons] using hl
      have hrec := ih hc'.2 hl'
      simpa [chainOk, hc'.1] using hrec

/-- The invariant carried through `applyCalls`. -/
def orderInv (o : Order) : Prop :=
  historyOk o.history = true ∧ o.history.getLast? = some o.state

theorem orderInv_createOrder : orderInv createOrder := by
  constructor <;> simp [createOrder, historyOk, chainOk]

theorem orderInv_step (o : Order) (s : OrderState) (h : orderInv o) :
    orderInv ((transition o s).getD o) := by
  obtain ⟨ost, ohist⟩ := o
  obtain ⟨hh, hl⟩ := h
  simp only at hh hl
  by_cases hterm : isTerminal ost = true
  · simpa [transition, hterm] using ⟨hh, hl⟩
  · by_cases hmem : s ∈ allowedTargets ost
    · rw [transition]
      simp only [if_neg hterm, if_pos hmem, Option.getD_some]
      constructor
      · simp only [historyOk, Bool.and_eq_true, decide_eq_true_eq] at hh ⊢
        refine ⟨?_, ?_⟩
        · rcases ohist with _ | ⟨x, t⟩
          · simp at hl
          · simpa using hh.1
        · exact chainOk_append hh.2 hl (by simpa using hterm) hmem
      · simp
    · simpa [transition, hterm, hmem] using ⟨hh, hl⟩

theorem orderInv_applyCalls (calls : List OrderState) (o : Order) (h : orderInv o) :
    orderInv (applyCalls o calls) := by
  induction calls generalizing o with
  | nil => simpa [applyCalls] using h
  | cons c rest ih =>
    have := orderInv_step o c h
    simpa [applyCalls, List.foldl_cons] using ih _ this

/-- C1.  `transition` rejects (raises `InvalidStateTransition`, leaving state
and history untouched) exactly when the current state is terminal or the edge
is not in `VALID_TRANSITIONS`; otherwise the state becomes the target and one
history entry is appended.  Consequently the history of any order obtained
from `create_order` by a sequence of `transition` calls is a path through the
edge set starting at CREATED, with no state following a terminal state. -/
theorem C1_state_machine_path :
    (∀ (o : Order) (s : OrderState),
        transition o s = none ↔
          (isTerminal o.state = true ∨ s ∉ allowedTargets o.state)) ∧
    (∀ (o : Order) (s : OrderState) (o' : Order),
        transition o s = some o' →
          o'.state = s ∧ o'.history = o.history ++ [s]) ∧
    (∀ calls : List OrderState,
        historyOk (applyCalls createOrder calls).history = true) := by
  refine ⟨?_, ?_, ?_⟩
  · intro o s
    constructor
    · intro h
      by_cases hterm : isTerminal o.state
      · exact Or.inl hterm
      · by_cases hmem : s ∈ allowedTargets o.state
        · simp [transition, hterm, hmem] at h
        · exact Or.inr hmem
    · rintro (h | h)
      · simp [transition, h]
      · by_cases hterm : isTerminal o.state = true
        · simp [transition, hterm]
        · simp [transition, hterm, h]
  · intro o s o' h
    by_cases hterm : isTerminal o.state = true
    · simp [transition, hterm] at h
    · by_cases hmem : s ∈ allowedTargets o.state
      · rw [transition, if_neg hterm, if_pos hmem] at h
        injection h with h
        subst h
        exact ⟨rfl, rfl⟩
      · simp [transition, hterm, hmem] at h
  · intro calls
    exact (orderInv_applyCalls calls createOrder orderInv_createOrder).1

/-- Witness for C1 at concrete inputs: a FILLED order admits no transition,
a CREATED→SUBMITTED transition appends one history entry, and a concrete call
sequence yields a valid path. -/
theorem C1_state_machine_path_witness :
    transition ⟨.filled, [.created, .submitted, .filled]⟩ .submitted = none ∧
    (∀ o', transition createOrder .submitted = some o' →
      o'.state = .submitted ∧ o'.history = [.created] ++ [.submitted]) ∧
    historyOk (applyCalls createOrder [.submitted, .filled, .submitted]).history = true :=
  ⟨(C1_state_machine_path.1 _ _).mpr (Or.inl rfl),
   fun o' h => C1_state_machine_path.2.1 createOrder .submitted o' h,
   C1_state_machine_path.2.2 [.submitted, .filled, .submitted]⟩

/-! ## Global position lock (`kats/risk/global_position_lock.py`) -/

/-- `StockGrade`. -/
inductive Grade where
  | A
  | B
  | C
  | D
deriving DecidableEq, Repr

/-- `GRADE_HARD_CAP` (% of capital). -/
def gradeHardCap : Grade → ℚ
  | .A => 30
  | .B => 20
  | .C => 10
  | .D => 0

/-- `StockReservation`: stored grade plus the strategy → reserved-% map. -/
structure StockRes where
  grade : Grade
  resMap : List (ℕ × ℚ)
deriving DecidableEq, Repr

/-- `StockReservation.total_pct`. -/
def totalPct (r : StockRes) : ℚ := (r.resMap.map Prod.snd).sum

/-- `GlobalPositionLock._reservations` (stock code → `StockReservation`). -/
abbrev LockState := List (ℕ × StockRes)

/-- `reservation.total_pct if reservation else 0.0` for a stock code. -/
def currentTotalOf (st : LockState) (code : ℕ) : ℚ :=
  match alGet code st with
  | some r => totalPct r
  | none => 0

/-- `GlobalPositionLock.check_and_reserve`. -/
def checkAndReserve (st : LockState) (code : ℕ) (grade : Grade) (pct : ℚ)
    (strat : ℕ) : Bool × LockState :=
  let cap := gradeHardCap grade
  let currentTotal := currentTotalOf st code
  if currentTotal + pct > cap then (false, st)
  else
    match alGet code st with
    | none => (true, alUpd code ⟨grade, alUpd strat (0 + pct) []⟩ st)
    | some r =>
      let prev := (alGet strat r.resMap).getD 0
      (true, alUpd code ⟨r.grade, alUpd strat (prev + pct) r.resMap⟩ st)

/-- `GlobalPositionLock.release`.  The `dict.pop(strategy_code, 0.0)` removes
the key even when its stored value is `0.0`, in which case the method returns
`False` before the empty-map cleanup. -/
def releaseLock (st : LockState) (code : ℕ) (strat : ℕ) : Bool × LockState :=
  match alGet code st with
  | none => (false, st)
  | some r =>
    match alGet strat r.resMap with
    | none => (false, st)
    | some v =>
      let r' : StockRes := ⟨r.grade, alErase strat r.resMap⟩
      if v = 0 then (false, alUpd code r' st)
      else if r'.resMap = [] then (true, alErase code st)
      else (true, alUpd code r' st)

/-- An operation on the lock. -/
inductive LockOp where
  | reserve (code : ℕ) (grade : Grade) (pct : ℚ) (strat : ℕ)
  | release (code : ℕ) (strat : ℕ)
deriving DecidableEq, Repr

/-- Run a sequence of lock operations. -/
def runOps (st : LockState) : List LockOp → LockState
  | [] => st
  | .reserve c g p s :: rest => runOps (checkAndReserve st c g p s).2 rest
  | .release c s :: rest => runOps (releaseLock st c s).2 rest

/-- The claimed invariant: every reserved stock's strategy reservations sum to
at most the hard cap of the stock's (stored) grade. -/
def capInvariant (st : LockState) : Prop :=
  ∀ p ∈ st, totalPct p.2 ≤ gradeHardCap p.2.grade

instance (st : LockState) : Decidable (capInvariant st) := by
  unfold capInvariant
  infer_instance

/-- Grade-consistent, nonnegative operations: every reserve names the stock's
fixed grade (`gr`) and a nonnegative percentage. -/
def opsOk (gr : ℕ → Grade) : List LockOp → Prop
  | [] => True
  | .reserve c g p _ :: rest => g = gr c ∧ 0 ≤ p ∧ opsOk gr rest
  | .release _ _ :: rest => opsOk gr rest

/-- Per-state strengthening of the cap invariant used for the induction. -/
def lockInv (gr : ℕ → Grade) (st : LockState) : Prop :=
  ∀ p ∈ st, p.2.grade = gr p.1 ∧ totalPct p.2 ≤ gradeHardCap p.2.grade ∧
    ∀ q ∈ p.2.resMap, 0 ≤ q.2

theorem sum_alUpd (k : ℕ) (v : ℚ) (m : List (ℕ × ℚ)) :
    ((alUpd k v m).map Prod.snd).sum =
      (m.map Prod.snd).sum + v - ((alGet k m).getD 0) := by
  induction m with
  | nil => simp [alUpd, alGet]
  | cons hd t ih =>
    obtain ⟨k', v'⟩ := hd
    by_cases hk : k' = k
    · subst hk
      simp [alUpd, alGet]
      ring
    · simp [alUpd, alGet, hk, ih]
      ring

theorem sum_alErase_le (k : ℕ) (m : List (ℕ × ℚ)) (h : ∀ q ∈ m, 0 ≤ q.2) :
    ((alErase k m).map Prod.snd).sum ≤ (m.map Prod.snd).sum := by
  induction m with
  | nil => simp [alErase]
  | cons hd t ih =>
    obtain ⟨k', v'⟩ := hd
    have hv' : 0 ≤ v' := h (k', v') (List.mem_cons_self _ _)
    have ht : ∀ q ∈ t, 0 ≤ q.2 := fun q hq => h q (List.mem_cons_of_mem _ hq)
    by_cases hk : k' = k
    · simp only [alErase, if_pos hk, List.map_cons, List.sum_cons]
      linarith
    · simp only [alErase, if_neg hk, List.map_cons, List.sum_cons]
      have := ih ht
      linarith

theorem lockInv_reserve {gr : ℕ → Grade} {st : LockState}
    (hst : lockInv gr st) (c : ℕ) (p : ℚ) (s : ℕ)
    (hp : 0 ≤ p) :
    lockInv gr (checkAndReserve st c (gr c) p s).2 := by
  rw [checkAndReserve]
  by_cases hover : currentTotalOf st c + p > gradeHardCap (gr c)
  · simpa [hover] using hst
  · simp only [hover, if_false]
    cases hget : alGet c st with
    | none =>
      simp only
      intro q hq
      rcases mem_alUpd hq with rfl | hmem
      · refine ⟨rfl, ?_, ?_⟩
        · simp only [totalPct, alUpd, List.map_cons, List.sum_cons, List.map_nil,
            List.sum_nil]
          have : currentTotalOf st c = 0 := by simp [currentTotalOf, hget]
          rw [this] at hover
          push_neg at hover
          simpa using hover
        · intro q' hq'
          simp only [alUpd, List.mem_singleton] at hq'
          subst hq'
          simpa using hp
      · exact hst q hmem
    | some r =>
      simp only
      intro q hq
      obtain ⟨hg, hcap, hvals⟩ := hst (c, r) (alGet_mem hget)
      rcases mem_alUpd hq with rfl | hmem
      · have hprev_def : ((alGet s r.resMap).getD 0) = 0 ∨
            ∃ v, alGet s r.resMap = some v ∧ ((alGet s r.resMap).getD 0) = v := by
          cases hv : alGet s r.resMap with
          | none => simp [hv]
          | some v => right; exact ⟨v, rfl, by simp [hv]⟩
        have hprev_nonneg : 0 ≤ ((alGet s r.resMap).getD 0) := by
          cases hv : alGet s r.resMap with
          | none => simp
          | some v =>
            have := hvals (s, v) (alGet_mem hv)
            simpa [hv] using this
        refine ⟨by simpa using hg, ?_, ?_⟩
        · have hcur : currentTotalOf st c = totalPct r := by
            simp [currentTotalOf, hget]
          push_neg at hover
          rw [hcur] at hover
          simp only [totalPct] at hcap ⊢
          rw [sum_alUpd]
          simp only [totalPct] at hover
          have hgc : gradeHardCap r.grade = gradeHardCap (gr c) := by rw [hg]
          rw [hgc]
          linarith
        · intro q' hq'
          rcases mem_alUpd hq' with rfl | hmem'
          · simpa using add_nonneg hprev_nonneg hp
          · exact hvals q' hmem'
      · exact hst q hmem

theorem lockInv_release {gr : ℕ → Grade} {st : LockState}
    (hst : lockInv gr st) (c s : ℕ) :
    lockInv gr (releaseLock st c s).2 := by
  cases hget : alGet c st with
  | none => simpa [releaseLock, hget] using hst
  | some r =>
    obtain ⟨hg, hcap, hvals⟩ := hst (c, r) (alGet_mem hget)
    cases hv : alGet s r.resMap with
    | none => simpa [releaseLock, hget, hv] using hst
    | some v =>
      have herase : ∀ q ∈ alErase s r.resMap, 0 ≤ q.2 :=
        fun q hq => hvals q (mem_alErase hq)
      have hsum : ((alErase s r.resMap).map Prod.snd).sum ≤ totalPct r :=
        sum_alErase_le s r.resMap hvals
      have hr' : lockInv gr (alUpd c ⟨r.grade, alErase s r.resMap⟩ st) := by
        intro q hq
        rcases mem_alUpd hq with rfl | hmem
        · exact ⟨hg, le_trans hsum hcap, herase⟩
        · exact hst q hmem
      by_cases hv0 : v = 0
      · simpa [releaseLock, hget, hv, hv0] using hr'
      · by_cases hemp : alErase s r.resMap = ([] : List (ℕ × ℚ))
        · simp only [releaseLock, hget, hv, hv0, if_false, hemp, if_pos rfl]
          intro q hq
          exact hst q (mem_alErase hq)
        · simpa [releaseLock, hget, hv, hv0, hemp] using hr'

theorem lockInv_runOps {gr : ℕ → Grade} (ops : List LockOp) (st : LockState)
    (hst : lockInv gr st) (hops : opsOk gr ops) :
    lockInv gr (runOps st ops) := by
  induction ops generalizing st with
  | nil => simpa [runOps] using hst
  | cons op rest ih =>
    cases op with
    | reserve c g p s =>
      obtain ⟨hgr, hp, hrest⟩ := hops
      subst hgr
      exact ih _ (lockInv_reserve hst c p s hp) hrest
    | release c s =>
      exact ih _ (lockInv_release hst c s) hops

/-- The operation sequence refuting C2 as stated: the second reserve passes a
different grade (A, cap 30) for a stock first reserved as grade C (cap 10),
so the stored grade's cap is breached. -/
def c2BreachOps : List LockOp :=
  [.reserve 1 .C 8 10, .reserve 1 .A 20 11]

/-- Counterexample to C2 as stated: starting from the empty reservation map,
`check_and_reserve(1, C, 8%, 10)` then `check_and_reserve(1, A, 20%, 11)` both
succeed (each call is checked only against the cap of the grade *argument*),
leaving stock 1 with stored grade C and a 28% total — above C's 10% hard cap.
So the sum of reservations can exceed the hard cap of the stock's grade. -/
theorem C2_cap_counterexample : ¬ capInvariant (runOps [] c2BreachOps) := by
  intro h
  have := h (1, ⟨Grade.C, [(10, 8), (11, 20)]⟩) (by
    norm_num [c2BreachOps, runOps, checkAndReserve, currentTotalOf, alGet,
      alUpd, totalPct, gradeHardCap])
  norm_num [totalPct, gradeHardCap] at this

/-- C2, amended.  A denied `check_and_reserve` (projected total above the cap
of the grade argument) returns `ok = false` and leaves the map unchanged; and
when every reserve for a stock passes that stock's fixed grade and a
nonnegative percentage, every reachable state satisfies the cap invariant:
each reserved stock's strategy reservations sum to at most its grade's hard
cap. -/
theorem C2_grade_cap_invariant :
    (∀ (st : LockState) (code : ℕ) (grade : Grade) (pct : ℚ) (strat : ℕ),
        currentTotalOf st code + pct > gradeHardCap grade →
        checkAndReserve st code grade pct strat = (false, st)) ∧
    (∀ (gr : ℕ → Grade) (ops : List LockOp), opsOk gr ops →
        capInvariant (runOps [] ops)) := by
  constructor
  · intro st code grade pct strat hover
    simp [checkAndReserve, hover]
  · intro gr ops hops
    have := lockInv_runOps ops [] (by intro p hp; simp at hp) hops
    intro p hp
    exact (this p hp).2.1

/-- Witness for C2 at concrete inputs: an over-cap reserve is denied and leaves
the state unchanged, and a concrete grade-consistent history satisfies the
invariant. -/
theorem C2_grade_cap_invariant_witness :
    checkAndReserve [] 1 Grade.C 11 10 = (false, []) ∧
    capInvariant (runOps [] [.reserve 1 .A 15 10, .reserve 1 .A 10 11,
      .release 1 10]) :=
  ⟨C2_grade_cap_invariant.1 [] 1 Grade.C 11 10 (by
      norm_num [currentTotalOf, alGet, gradeHardCap]),
   C2_grade_cap_invariant.2 (fun _ => Grade.A)
     [.reserve 1 .A 15 10, .reserve 1 .A 10 11, .release 1 10]
     (by exact ⟨rfl, by norm_num, rfl, by norm_num, trivial⟩)⟩

/-- The state refuting C9 as stated: strategy 10 already holds 5% of stock 1. -/
def c9PreState : LockState := (checkAndReserve [] 1 Grade.A 5 10).2

/-- Counterexample to C9 as stated: from a state where strategy 10 already
holds a 5% reservation on stock 1, a successful `check_and_reserve` of another
5% followed by `release(1, 10)` does not restore the pre-reserve state —
`release` drops the strategy's *entire* accumulated reservation, leaving the
map empty instead of restoring the original 5% entry. -/
theorem C9_release_counterexample :
    (checkAndReserve c9PreState 1 Grade.A 5 10).1 = true ∧
    (releaseLock (checkAndReserve c9PreState 1 Grade.A 5 10).2 1 10).2 ≠
      c9PreState := by
  constructor
  · norm_num [c9PreState, checkAndReserve, currentTotalOf, alGet, alUpd,
      totalPct, gradeHardCap]
  · norm_num [c9PreState, checkAndReserve, releaseLock, currentTotalOf, alGet,
      alUpd, alErase, totalPct, gradeHardCap]

/-- C9, amended.  If the requesting strategy holds no reservation for the
stock, the requested percentage is nonzero, and the stock's entry (when
present) is nonempty — as in every state reachable by nonzero reserves — then
a successful `check_and_reserve` immediately followed by `release` of the same
stock and strategy returns the reservation map to exactly the pre-reserve
state. -/
theorem C9_reserve_release_inverse
    (st : LockState) (code : ℕ) (grade : Grade) (pct : ℚ) (strat : ℕ)
    (hfresh : ∀ r, alGet code st = some r →
      alGet strat r.resMap = none ∧ r.resMap ≠ [])
    (hpct : pct ≠ 0)
    (hok : (checkAndReserve st code grade pct strat).1 = true) :
    releaseLock (checkAndReserve st code grade pct strat).2 code strat =
      (true, st) := by
  by_cases hover : currentTotalOf st code + pct > gradeHardCap grade
  · simp [checkAndReserve, hover] at hok
  · cases hget : alGet code st with
    | none =>
      have hres : (checkAndReserve st code grade pct strat).2 =
          alUpd code ⟨grade, alUpd strat (0 + pct) []⟩ st := by
        simp [checkAndReserve, hover, hget]
      rw [hres]
      have h1 : alGet code (alUpd code ⟨grade, alUpd strat (0 + pct) []⟩ st) =
          some ⟨grade, alUpd strat (0 + pct) []⟩ := alGet_alUpd_self _ _ _
      have h2 : alGet strat (alUpd strat (0 + pct) ([] : List (ℕ × ℚ))) =
          some (0 + pct) := alGet_alUpd_self _ _ _
      have hpct' : ¬ (0 + pct = 0) := by simpa using hpct
      have h3 : alErase strat (alUpd strat (0 + pct) ([] : List (ℕ × ℚ))) = [] := by
        simp [alUpd, alErase]
      simp only [releaseLock, h1, h2, hpct', if_false, h3, if_pos rfl]
      rw [alErase_alUpd_of_not_mem _ _ _ hget]
      simp
    | some r =>
      obtain ⟨habsent, hne⟩ := hfresh r hget
      have hres : (checkAndReserve st code grade pct strat).2 =
          alUpd code ⟨r.grade, alUpd strat ((alGet strat r.resMap).getD 0 + pct)
            r.resMap⟩ st := by
        simp [checkAndReserve, hover, hget]
      rw [hres]
      have h1 : alGet code (alUpd code
          ⟨r.grade, alUpd strat ((alGet strat r.resMap).getD 0 + pct) r.resMap⟩ st) =
          some ⟨r.grade, alUpd strat ((alGet strat r.resMap).getD 0 + pct) r.resMap⟩ :=
        alGet_alUpd_self _ _ _
      have h2 : alGet strat (alUpd strat ((alGet strat r.resMap).getD 0 + pct)
          r.resMap) = some ((alGet strat r.resMap).getD 0 + pct) :=
        alGet_alUpd_self _ _ _
      have hval : (alGet strat r.resMap).getD 0 + pct = pct := by
        simp [habsent]
      have hpct' : ¬ ((alGet strat r.resMap).getD 0 + pct = 0) := by
        rw [hval]; exact hpct
      have h3 : alErase strat (alUpd strat ((alGet strat r.resMap).getD 0 + pct)
          r.resMap) = r.resMap := alErase_alUpd_of_not_mem _ _ _ habsent
      simp only [releaseLock, h1, h2, hpct', if_false, h3, hne]
      have h4 : (⟨r.grade, r.resMap⟩ : StockRes) = r := rfl
      rw [h4, alUpd_alUpd_self, alUpd_self_of_get _ _ _ hget]

/-- Witness for C9 at a concrete input: reserving 5% of stock 1 for strategy
10 on the empty map and releasing it restores the empty map. -/
theorem C9_reserve_release_inverse_witness :
    releaseLock (checkAndReserve [] 1 Grade.A 5 10).2 1 10 = (true, []) :=
  C9_reserve_release_inverse [] 1 Grade.A 5 10
    (by intro r hr; simp [alGet] at hr)
    (by norm_num)
    (by norm_num [checkAndReserve, currentTotalOf, alGet, gradeHardCap])

/-! ## Margin guard (`kats/risk/margin_guard.py`) -/

/-- Order side (`order_type` strings `BUY`/`SELL`). -/
inductive OrderSide where
  | buy
  | sell
deriving DecidableEq, Repr

/-- `MarginGuard` state: cached balance and pending reservation amounts (the
reservation keys are irrelevant to the claims, only the amounts are kept,
in insertion order). -/
structure MarginState where
  cachedBalance : ℤ
  pending : List ℤ
deriving DecidableEq, Repr

/-- `sum(self._pending_reservations.values())`. -/
def totalReserved (s : MarginState) : ℤ := s.pending.sum

/-- `_get_available_cash` with a fresh cache:
`max(0, cached_balance - total_reserved)`. -/
def availableCash (s : MarginState) : ℤ := max 0 (s.cachedBalance - totalReserved s)

/-- `_TOTAL_FEE_RATE = COMMISSION_RATE * 2 + TAX_RATE = 0.00015*2 + 0.0018`. -/
def totalFeeRate : ℚ := 15/100000 * 2 + 18/10000

/-- `required_amount = gross_amount + int(gross_amount * _TOTAL_FEE_RATE)`. -/
def requiredAmount (quantity price : ℤ) : ℤ :=
  quantity * price + intTrunc ((quantity * price : ℤ) * totalFeeRate)

/-- `MarginGuard.validate_order` (balance cache fresh; sell orders pass with
no state change, buy orders are checked and reserve the required amount). -/
def validateOrder (s : MarginState) (quantity price : ℤ) (side : OrderSide) :
    Bool × MarginState :=
  match side with
  | .sell => (true, s)
  | .buy =>
    if availableCash s < requiredAmount quantity price then (false, s)
    else (true, ⟨s.cachedBalance, s.pending ++ [requiredAmount quantity price]⟩)

/-- The required-cash formula exactly as claim C4 words it:
`qty*price*(1 + 2*commission + tax) = qty*price*1.00195`.  Stated only to be
compared against the source's `requiredAmount`. -/
def requiredAmountPerClaimC4 (quantity price : ℤ) : ℚ :=
  (quantity * price : ℤ) * (100195/100000)

/-- Counterexample to C4 as stated: for a 1-share BUY at 100000 KRW with
balance 100200 and no pending reservations, the claim's required amount is
100195 ≤ available 100200, yet the code rejects — its fee rate is
`2*0.015% + 0.18% = 0.21%` (not `0.195%`), giving a required amount of
100000 + int(210) = 100210 > 100200. -/
theorem C4_fee_counterexample :
    requiredAmountPerClaimC4 1 100000 ≤ ((availableCash ⟨100200, []⟩ : ℤ) : ℚ) ∧
    (validateOrder ⟨100200, []⟩ 1 100000 .buy).1 = false := by
  constructor
  · norm_num [requiredAmountPerClaimC4, availableCash, totalReserved]
  · norm_num [validateOrder, availableCash, totalReserved, requiredAmount,
      intTrunc, totalFeeRate]

/-- C4, amended.  For BUY orders the required cash is
`qty*price + int(qty*price * 0.0021)` (commission 0.015% twice plus tax 0.18%,
fee truncated to an integer); the order is rejected with a shortfall exactly
when `max(0, cached_balance - Σ pending) < required`, and otherwise the
required amount is appended as a new pending reservation. -/
theorem C4_margin_required (s : MarginState) (q p : ℤ) :
    ((validateOrder s q p .buy).1 = false ↔
      availableCash s < requiredAmount q p) ∧
    ((validateOrder s q p .buy).1 = false → (validateOrder s q p .buy).2 = s) ∧
    ((validateOrder s q p .buy).1 = true →
      (validateOrder s q p .buy).2 =
        ⟨s.cachedBalance, s.pending ++ [requiredAmount q p]⟩) := by
  by_cases h : availableCash s < requiredAmount q p <;>
    simp [validateOrder, h]

/-- Witness for C4 at a concrete input: 2 shares at 100 KRW with 1000 KRW
cash are accepted and 200 KRW (fee truncates to 0) is reserved. -/
theorem C4_margin_required_witness :
    (validateOrder ⟨1000, []⟩ 2 100 .buy).2 =
      ⟨1000, [] ++ [requiredAmount 2 100]⟩ :=
  (C4_margin_required ⟨1000, []⟩ 2 100).2.2 (by
    norm_num [validateOrder, availableCash, totalReserved, requiredAmount,
      intTrunc, totalFeeRate])

/-! ## Paper trading engine (`kats/order/paper_trading.py`) -/

/-- `fill_type` values. -/
inductive FillKind where
  | fullInstant
  | partialSimulated
deriving DecidableEq, Repr

/-- The fields of the result dict that the claims are about.  (The dict also
carries rounded slippage diagnostics and a timestamp, not modelled.) -/
structure FillResult where
  success : Bool
  fillKind : Option FillKind
  fillPrice : ℚ
  fillQuantity : ℤ
  remainingQuantity : ℤ
deriving DecidableEq, Repr

/-- `PaperTradingEngine.execute_virtual_order`, given the relevant side's
cached best price and volume (ask for BUY, bid for SELL).  `fill_price` in the
returned dict is `round(fill_price, 2)`. -/
def executeVirtualOrder (side : OrderSide) (quantity : ℤ) (bestPrice : ℚ)
    (bestVolume : ℤ) : FillResult :=
  if bestPrice ≤ 0 ∨ bestVolume ≤ 0 then
    ⟨false, none, 0, 0, quantity⟩
  else
    let ratio : ℚ := (quantity : ℚ) / (bestVolume : ℚ)
    if ratio > 1/5 then
      let fq0 := intTrunc ((bestVolume : ℚ) * (1/5))
      let fq := if fq0 < 1 then 1 else fq0
      let impact := (ratio - 1/5) * (1/20) * 100
      let slip := 1/10 + impact
      let price := match side with
        | .buy => bestPrice * (1 + slip / 100)
        | .sell => bestPrice * (1 - slip / 100)
      ⟨true, some .partialSimulated, pyRound2 price, fq, quantity - fq⟩
    else
      let price := match side with
        | .buy => bestPrice * (1 + (1/10) / 100)
        | .sell => bestPrice * (1 - (1/10) / 100)
      ⟨true, some .fullInstant, pyRound2 price, quantity, 0⟩

/-- The ± sign of the slippage for the order side. -/
def slipSign : OrderSide → ℚ
  | .buy => 1
  | .sell => -1

/-- Counterexample to C3 as stated: (i) a BUY of 2 shares against best volume
4 has `quantity > 0.2*volume`, and the engine fills `max(1, floor(0.2*4)) = 1`
share — not the claimed `floor(0.2*4) = 0` — leaving 1 remaining, not 2;
(ii) a BUY of 10 shares against volume 100 at best price 1234 is a full fill,
but the returned `fill_price` is `round(1234*1.001, 2) = 1235.23`, not exactly
`1234*1.001 = 1235.234`. -/
theorem C3_fill_counterexample :
    (executeVirtualOrder .buy 2 1000 4).fillQuantity = 1 ∧
    (executeVirtualOrder .buy 2 1000 4).remainingQuantity = 1 ∧
    (executeVirtualOrder .buy 10 1234 100).fillPrice ≠ 1234 * (1 + 1/1000) := by
  refine ⟨?_, ?_, ?_⟩ <;>
    norm_num [executeVirtualOrder, intTrunc, pyRound2, roundHalfEven,
      Int.floor_eq_iff]

/-- C3, amended.  With positive best price `p` and volume `v` on the relevant
book side: if `quantity ≤ 0.2*v` the engine returns a full instant fill of the
whole quantity at `round(p*(1 ± 0.001), 2)`; if `quantity > 0.2*v` it returns
a partial fill of `max(1, floor(0.2*v))` shares at
`round(p*(1 ± (0.001 + (quantity/v - 0.2)*0.05)), 2)` with the rest remaining
(`+` for BUY, `-` for SELL). -/
theorem C3_paper_fill (side : OrderSide) (q : ℤ) (p : ℚ) (v : ℤ)
    (hp : 0 < p) (hv : 0 < v) :
    ((q : ℚ) ≤ (v : ℚ) * (1/5) →
      executeVirtualOrder side q p v =
        ⟨true, some .fullInstant, pyRound2 (p * (1 + slipSign side * (1/1000))),
         q, 0⟩) ∧
    ((v : ℚ) * (1/5) < (q : ℚ) →
      executeVirtualOrder side q p v =
        ⟨true, some .partialSimulated,
         pyRound2 (p * (1 + slipSign side *
           (1/1000 + ((q : ℚ)/(v : ℚ) - 1/5) * (1/20)))),
         max 1 ⌊(v : ℚ) * (1/5)⌋,
         q - max 1 ⌊(v : ℚ) * (1/5)⌋⟩) := by
  have hvq : (0 : ℚ) < (v : ℚ) := by exact_mod_cast hv
  have hnb : ¬ (p ≤ 0 ∨ v ≤ 0) := by push_neg; exact ⟨hp, hv⟩
  have hfq : intTrunc ((v : ℚ) * (1/5)) = ⌊(v : ℚ) * (1/5)⌋ :=
    intTrunc_of_nonneg (by positivity)
  have hmax : ∀ n : ℤ, (if n < 1 then (1 : ℤ) else n) = max 1 n := by
    intro n
    split <;> omega
  constructor
  · intro hle
    have hratio : ¬ ((q : ℚ) / (v : ℚ) > 1/5) := by
      rw [not_lt, div_le_iff₀ hvq]
      linarith
    cases side <;>
      simp only [executeVirtualOrder, hnb, if_false, hratio, slipSign] <;>
      · congr 1
        ring_nf
  · intro hlt
    have hratio : (q : ℚ) / (v : ℚ) > 1/5 := by
      rw [gt_iff_lt, lt_div_iff₀ hvq]
      linarith
    cases side <;>
      simp only [executeVirtualOrder, hnb, if_false, hratio, if_true, hfq,
        hmax, slipSign] <;>
      · congr 1
        ring_nf

/-- Witness for C3 at concrete inputs: the full-fill branch for a BUY of 10
shares against volume 100 at price 1234, and the partial branch for a BUY of
2 shares against volume 4 at price 1000. -/
theorem C3_paper_fill_witness :
    executeVirtualOrder .buy 10 1234 100 =
      ⟨true, some .fullInstant, pyRound2 (1234 * (1 + slipSign .buy * (1/1000))),
       10, 0⟩ ∧
    executeVirtualOrder .buy 2 1000 4 =
      ⟨true, some .partialSimulated,
       pyRound2 (1000 * (1 + slipSign .buy *
         (1/1000 + ((2 : ℚ)/(4 : ℚ) - 1/5) * (1/20)))),
       max 1 ⌊(4 : ℚ) * (1/5)⌋, 2 - max 1 ⌊(4 : ℚ) * (1/5)⌋⟩ :=
  ⟨(C3_paper_fill .buy 10 1234 100 (by norm_num) (by norm_num)).1 (by norm_num),
   (C3_paper_fill .buy 2 1000 4 (by norm_num) (by norm_num)).2 (by norm_num)⟩

/-! ## Position sizer (`kats/risk/position_sizer.py`) -/

/-- `MarketRegime`. -/
inductive MarketRegime where
  | strongBull
  | bull
  | sideways
  | bear
  | strongBear
deriving DecidableEq, Repr

/-- `RISK_BY_REGIME`. -/
def riskByRegime : MarketRegime → ℚ
  | .strongBull => 2/100
  | .bull => 18/1000
  | .sideways => 12/1000
  | .bear => 8/1000
  | .strongBear => 5/1000

/-- `GRADE_LIMIT.get(grade, 0.10)` (the table has no D entry; grade D is
rejected before the lookup, so only the 0.10 default can be observed). -/
def gradeLimitLookup : Grade → ℚ
  | .A => 30/100
  | .B => 20/100
  | .C => 10/100
  | .D => 10/100

/-- `CONFIDENCE_MULTIPLIER.get(confidence, 0.50)`. -/
def confMult (c : ℤ) : ℚ :=
  if c = 5 then 1 else if c = 4 then 3/4 else 1/2

/-- The fields of the sizing result dict that the claims are about.  (The dict
also carries rounded echo fields — `position_pct`, `stop_loss_pct`, etc. — not
modelled.) -/
structure SizerResult where
  accepted : Bool
  positionAmount : ℤ
  quantity : ℤ
  riskAmount1r : ℤ
deriving DecidableEq, Repr

/-- `PositionSizer.calculate` with the default tables. -/
def sizerCalculate (totalCapital : ℤ) (regime : MarketRegime)
    (entryPrice stopLoss : ℤ) (grade : Grade) (confidence : ℤ) : SizerResult :=
  if confidence ≤ 2 then ⟨false, 0, 0, 0⟩
  else if stopLoss ≥ entryPrice then ⟨false, 0, 0, 0⟩
  else if grade = .D then ⟨false, 0, 0, 0⟩
  else
    let regimeRiskPct := riskByRegime regime
    let stopLossPct : ℚ := ((entryPrice : ℚ) - (stopLoss : ℚ)) / (entryPrice : ℚ)
    let cm := confMult confidence
    let gl := gradeLimitLookup grade
    let rawAmount := ((totalCapital : ℚ) * regimeRiskPct * cm) / stopLossPct
    let gradeCapAmount := (totalCapital : ℚ) * gl
    let pa1 := max (intTrunc (min rawAmount gradeCapAmount)) 0
    let quantity := if entryPrice > 0 then Int.fdiv pa1 entryPrice else 0
    ⟨true, quantity * entryPrice, quantity, quantity * (entryPrice - stopLoss)⟩

/-- C5.  With positive capital and entry price, `calculate` rejects exactly
when confidence ≤ 2, or stop ≥ entry, or grade is D (with quantity 0); when it
accepts, `quantity = floor(floor(min(raw, cap)) / entry)` for
`raw = capital*risk%[regime]*conf_mult[confidence] / ((entry-stop)/entry)` and
`cap = capital*grade_limit[grade]`, `position_amount = quantity*entry`, and
`risk_amount_1r = quantity*(entry-stop)`. -/
theorem C5_position_sizer (tc : ℤ) (rg : MarketRegime) (entry stop : ℤ)
    (g : Grade) (conf : ℤ) (htc : 0 < tc) (he : 0 < entry) :
    ((sizerCalculate tc rg entry stop g conf).accepted = false ↔
      (conf ≤ 2 ∨ stop ≥ entry ∨ g = Grade.D)) ∧
    ((sizerCalculate tc rg entry stop g conf).accepted = false →
      (sizerCalculate tc rg entry stop g conf).quantity = 0) ∧
    ((sizerCalculate tc rg entry stop g conf).accepted = true →
      (sizerCalculate tc rg entry stop g conf).quantity =
        ⌊((⌊min (((tc : ℚ) * riskByRegime rg * confMult conf) /
              (((entry : ℚ) - (stop : ℚ)) / (entry : ℚ)))
            ((tc : ℚ) * gradeLimitLookup g)⌋ : ℚ) / (entry : ℚ))⌋ ∧
      (sizerCalculate tc rg entry stop g conf).positionAmount =
        (sizerCalculate tc rg entry stop g conf).quantity * entry ∧
      (sizerCalculate tc rg entry stop g conf).riskAmount1r =
        (sizerCalculate tc rg entry stop g conf).quantity * (entry - stop)) := by
  by_cases h1 : conf ≤ 2
  · refine ⟨⟨fun _ => Or.inl h1, fun _ => ?_⟩, fun _ => ?_, fun ht => ?_⟩
    · simp [sizerCalculate, h1]
    · simp [sizerCalculate, h1]
    · simp [sizerCalculate, h1] at ht
  · by_cases h2 : stop ≥ entry
    · refine ⟨⟨fun _ => Or.inr (Or.inl h2), fun _ => ?_⟩, fun _ => ?_,
        fun ht => ?_⟩
      · simp [sizerCalculate, h1, h2]
      · simp [sizerCalculate, h1, h2]
      · simp [sizerCalculate, h1, h2] at ht
    · by_cases h3 : g = Grade.D
      · refine ⟨⟨fun _ => Or.inr (Or.inr h3), fun _ => ?_⟩, fun _ => ?_,
          fun ht => ?_⟩
        · simp [sizerCalculate, h1, h2, h3]
        · simp [sizerCalculate, h1, h2, h3]
        · simp [sizerCalculate, h1, h2, h3] at ht
      · have hrisk : 0 < riskByRegime rg := by
          cases rg <;> norm_num [riskByRegime]
        have hcm : 0 < confMult conf := by
          unfold confMult
          split_ifs <;> norm_num
        have heq : (0 : ℚ) < (entry : ℚ) := by exact_mod_cast he
        have hsq : (stop : ℚ) < (entry : ℚ) := by
          exact_mod_cast not_le.mp h2
        have htcq : (0 : ℚ) < (tc : ℚ) := by exact_mod_cast htc
        have hslp : 0 < ((entry : ℚ) - (stop : ℚ)) / (entry : ℚ) :=
          div_pos (by linarith) heq
        have hraw : 0 < ((tc : ℚ) * riskByRegime rg * confMult conf) /
            (((entry : ℚ) - (stop : ℚ)) / (entry : ℚ)) :=
          div_pos (by positivity) hslp
        have hcap : 0 < (tc : ℚ) * gradeLimitLookup g :=
          mul_pos htcq (by cases g <;> norm_num [gradeLimitLookup])
        have hmin : 0 ≤ min (((tc : ℚ) * riskByRegime rg * confMult conf) /
            (((entry : ℚ) - (stop : ℚ)) / (entry : ℚ)))
            ((tc : ℚ) * gradeLimitLookup g) := le_min hraw.le hcap.le
        have hfl : 0 ≤ ⌊min (((tc : ℚ) * riskByRegime rg * confMult conf) /
            (((entry : ℚ) - (stop : ℚ)) / (entry : ℚ)))
            ((tc : ℚ) * gradeLimitLookup g)⌋ :=
          Int.le_floor.mpr (by exact_mod_cast hmin)
        refine ⟨⟨fun hf => ?_, fun hd => ?_⟩, fun hf => ?_, fun _ => ?_⟩
        · simp [sizerCalculate, h1, h2, h3] at hf
        · rcases hd with h | h | h
          · exact absurd h h1
          · exact absurd h h2
          · exact absurd h h3
        · simp [sizerCalculate, h1, h2, h3] at hf
        · refine ⟨?_, ?_, ?_⟩
          · simp only [sizerCalculate, if_neg h1, if_neg h2, if_neg h3]
            rw [intTrunc_of_nonneg hmin, max_eq_left hfl, if_pos he,
              fdiv_eq_floor _ _ he]
          · simp [sizerCalculate, h1, h2, h3]
          · simp [sizerCalculate, h1, h2, h3]

/-- Witness for C5 at the module's own usage example: 100M capital, BULL,
entry 50000, stop 47500, grade B, confidence 4 → min(27M, 20M) = 20M KRW,
400 shares. -/
theorem C5_position_sizer_witness :
    (sizerCalculate 100000000 .bull 50000 47500 .B 4).accepted = true ∧
    (sizerCalculate 100000000 .bull 50000 47500 .B 4).positionAmount =
      (sizerCalculate 100000000 .bull 50000 47500 .B 4).quantity * 50000 := by
  have hacc : (sizerCalculate 100000000 .bull 50000 47500 .B 4).accepted =
      true := by
    have hg : ¬ (Grade.B = Grade.D) := by decide
    norm_num [sizerCalculate, hg]
  exact ⟨hacc,
    ((C5_position_sizer 100000000 .bull 50000 47500 .B 4 (by norm_num)
      (by norm_num)).2.2 hacc).2.1⟩

/-! ## Drawdown protocol (`kats/risk/drawdown_protocol.py`) -/

/-- `DrawdownLevel`. -/
inductive DDLevel where
  | none
  | green
  | yellow
  | orange
  | red
  | black
deriving DecidableEq, Repr

/-- `_severity`. -/
def severity : DDLevel → ℕ
  | .none => 0
  | .green => 1
  | .yellow => 2
  | .orange => 3
  | .red => 4
  | .black => 5

/-- A local (KST) timestamp: a day index and the second of that day.
`datetime.replace(hour=16, minute=30, ...)` keeps the day and sets the
second-of-day to 59400; adding `timedelta(days=n)` adds `n` to the day. -/
structure Time where
  day : ℤ
  sod : ℚ
deriving DecidableEq, Repr

/-- `<` on timestamps. -/
def timeLt (a b : Time) : Prop :=
  a.day < b.day ∨ (a.day = b.day ∧ a.sod < b.sod)

instance (a b : Time) : Decidable (timeLt a b) := by
  unfold timeLt
  infer_instance

/-- The YELLOW halt deadline: `now.replace(hour=16, minute=30, second=0,
microsecond=0)`, bumped by one day when `now >= eod`. -/
def eodOf (now : Time) : Time :=
  if 59400 ≤ now.sod then ⟨now.day + 1, 59400⟩ else ⟨now.day, 59400⟩

/-- `DrawdownProtocol._classify`. -/
def classify (d m c : ℚ) : DDLevel :=
  if c ≤ -(15/100) then .black
  else if c ≤ -(10/100) then .red
  else if m ≤ -(6/100) then .orange
  else if d ≤ -(3/100) then .yellow
  else if d ≤ -(2/100) then .green
  else .none

/-- `DrawdownState` (the string `halt_reason` and `last_evaluated` are not
modelled; the returned response dict copies these state fields). -/
structure DDState where
  level : DDLevel
  positionScale : ℚ
  tradingHalted : Bool
  haltUntil : Option Time
  paperModeForced : Bool
  consecutivePaperWins : ℕ
  strategyReviewRequired : Bool
deriving DecidableEq, Repr

/-- The freshly constructed `DrawdownState()`. -/
def ddInitState : DDState := ⟨.none, 1, false, Option.none, false, 0, false⟩

/-- `DrawdownProtocol._escalate`.  The ORANGE deadline (first day of the next
month, 09:00) depends on calendar arithmetic abstracted as `nextMonthStart`. -/
def escalate (nextMonthStart : Time → Time) (s : DDState) (lvl : DDLevel)
    (now : Time) : DDState :=
  match lvl with
  | .none => { s with level := lvl }
  | .green =>
    { s with
      level := lvl
      positionScale := 1/2
      tradingHalted := false }
  | .yellow =>
    { s with
      level := lvl
      positionScale := 0
      tradingHalted := true
      haltUntil := some (eodOf now) }
  | .orange =>
    { s with
      level := lvl
      positionScale := 0
      tradingHalted := true
      haltUntil := some (nextMonthStart now) }
  | .red =>
    { s with
      level := lvl
      positionScale := 0
      tradingHalted := true
      paperModeForced := true
      consecutivePaperWins := 0
      haltUntil := some ⟨now.day + 7, now.sod⟩ }
  | .black =>
    { s with
      level := lvl
      positionScale := 0
      tradingHalted := true
      paperModeForced := true
      strategyReviewRequired := true
      haltUntil := Option.none }

/-- `halt_until and now < halt_until`: still inside a timed halt window. -/
def inTimedHalt (s : DDState) (now : Time) : Bool :=
  match s.haltUntil with
  | some hu => decide (timeLt now hu)
  | Option.none => false

/-- `DrawdownProtocol.evaluate_and_respond`: returns early inside an active
halt window, otherwise classifies and escalates (never de-escalates).  The
response dict mirrors the state fields, so the new state is returned. -/
def ddEvaluate (nextMonthStart : Time → Time) (s : DDState) (now : Time)
    (d m c : ℚ) : DDState :=
  if inTimedHalt s now then s
  else
    let lvl := classify d m c
    if severity s.level < severity lvl then escalate nextMonthStart s lvl now
    else s

/-- Counterexample to C6 as stated: from the NONE state with no halt window,
an evaluation at 17:00 (second-of-day 61200 of day 0) with
`daily = -3.5%, monthly = -2%, cumulative = -4%` classifies YELLOW, but the
halt deadline is 16:30 of the *next* day (day 1), not of the current trading
day — `_escalate` bumps the deadline by one day whenever `now >= 16:30`. -/
theorem C6_halt_time_counterexample :
    (ddEvaluate id ddInitState ⟨0, 61200⟩ (-35/1000) (-2/100)
        (-4/100)).level = DDLevel.yellow ∧
    (ddEvaluate id ddInitState ⟨0, 61200⟩ (-35/1000) (-2/100)
        (-4/100)).haltUntil ≠ some ⟨0, 59400⟩ := by
  constructor <;>
    norm_num [ddEvaluate, inTimedHalt, ddInitState, classify, severity,
      escalate, eodOf, Time.mk.injEq]

/-- C6, amended.  From level NONE with no active halt window, an evaluation
with `daily ≤ -3%`, `monthly > -6%` and `cumulative > -10%` yields level
YELLOW with trading halted and position scale 0, and `halt_until` equal to
16:30 of the current day when the evaluation happens before 16:30, else 16:30
of the next day. -/
theorem C6_yellow_trigger (nextMonthStart : Time → Time) (s : DDState)
    (now : Time) (d m c : ℚ)
    (hlvl : s.level = DDLevel.none) (hhalt : s.haltUntil = Option.none)
    (hd : d ≤ -(3/100)) (hm : -(6/100) < m) (hc : -(10/100) < c) :
    ddEvaluate nextMonthStart s now d m c =
      { s with
        level := DDLevel.yellow
        positionScale := 0
        tradingHalted := true
        haltUntil := some (eodOf now) } ∧
    (now.sod < 59400 → eodOf now = ⟨now.day, 59400⟩) := by
  have hcls : classify d m c = DDLevel.yellow := by
    unfold classify
    rw [if_neg (by linarith), if_neg (by linarith), if_neg (by linarith),
      if_pos hd]
  have hnh : inTimedHalt s now = false := by simp [inTimedHalt, hhalt]
  constructor
  · rw [ddEvaluate, hnh]
    simp only [Bool.false_eq_true, if_false, hcls, hlvl]
    rw [if_pos (by norm_num [severity])]
    rfl
  · intro h
    simp [eodOf, not_le.mpr h]

/-- Witness for C6 at a concrete input: evaluation at 10:00 of day 0 with
`daily = -3.5%, monthly = -2%, cumulative = -4%` from the fresh state. -/
theorem C6_yellow_trigger_witness :
    ddEvaluate id ddInitState ⟨0, 36000⟩ (-35/1000) (-2/100) (-4/100) =
      { ddInitState with
        level := DDLevel.yellow
        positionScale := 0
        tradingHalted := true
        haltUntil := some (eodOf ⟨0, 36000⟩) } ∧
    eodOf ⟨0, 36000⟩ = ⟨0, 59400⟩ :=
  ⟨(C6_yellow_trigger id ddInitState ⟨0, 36000⟩ (-35/1000) (-2/100) (-4/100)
      rfl rfl (by norm_num) (by norm_num) (by norm_num)).1,
   (C6_yellow_trigger id ddInitState ⟨0, 36000⟩ (-35/1000) (-2/100) (-4/100)
      rfl rfl (by norm_num) (by norm_num) (by norm_num)).2 (by norm_num)⟩

/-! ## Pyramid manager (`kats/order/pyramid_manager.py`) -/

/-- `PyramidConfig`. -/
structure PyramidConfig where
  maxStages : ℕ
  stageRatios : List ℚ
  profitTriggerPct : List ℚ
deriving DecidableEq, Repr

/-- `DEFAULT_PYRAMID_CONFIG`. -/
def defaultPyramidConfig : PyramidConfig := ⟨3, [1/2, 3/10, 1/5], [0, 5, 10]⟩

/-- `profit_pct = ((current_price - avg_entry_price) / avg_entry_price) * 100`. -/
def profitPctOf (avgEntry price : ℚ) : ℚ := ((price - avgEntry) / avgEntry) * 100

/-- `PyramidManager.check_pyramid_opportunity`, taking the position fields and
the trade's tracked `current_stage`.  Returns `some (next_stage, quantity)`
for an add-on intent, `none` otherwise. -/
def checkPyramidOpportunity (cfg : PyramidConfig) (orderIsBuy : Bool)
    (avgEntry : ℚ) (totalPlannedQty : ℤ) (currentStage : ℕ)
    (currentPrice : ℚ) : Option (ℕ × ℤ) :=
  if !orderIsBuy then Option.none
  else if avgEntry ≤ 0 ∨ totalPlannedQty ≤ 0 then Option.none
  else if profitPctOf avgEntry currentPrice ≤ 0 then Option.none
  else if cfg.maxStages ≤ currentStage + 1 then Option.none
  else if profitPctOf avgEntry currentPrice <
      cfg.profitTriggerPct.getD (currentStage + 1) 0 then Option.none
  else
    some (currentStage + 1,
      max 1 (intTrunc ((totalPlannedQty : ℚ) *
        cfg.stageRatios.getD (currentStage + 1) 0)))

theorem getD_nonneg_of_forall {l : List ℚ} (h : ∀ r ∈ l, 0 ≤ r) (n : ℕ) :
    0 ≤ l.getD n 0 := by
  rcases lt_or_ge n l.length with hn | hn
  · rw [List.getD_eq_getElem l 0 hn]
    exact h _ (List.getElem_mem hn)
  · rw [List.getD_eq_default l 0 hn]

/-- C7.  For a position with positive average entry and planned quantity,
`check_pyramid_opportunity` returns an add-on intent iff the order is a BUY,
the profit percentage is positive, the next stage is below `max_stages`, and
the profit percentage reaches the next stage's trigger; the intent's stage is
`current_stage + 1` and its quantity is
`max(1, floor(total_planned_quantity * stage_ratios[next_stage]))`
(the ratios being nonnegative, as in the default config).  A position at a
loss never gets an intent. -/
theorem C7_pyramid_opportunity (cfg : PyramidConfig) (orderIsBuy : Bool)
    (avgEntry : ℚ) (qty : ℤ) (stage : ℕ) (price : ℚ)
    (hae : 0 < avgEntry) (hq : 0 < qty)
    (hrat : ∀ r ∈ cfg.stageRatios, 0 ≤ r) :
    ((checkPyramidOpportunity cfg orderIsBuy avgEntry qty stage price).isSome ↔
      (orderIsBuy = true ∧ 0 < profitPctOf avgEntry price ∧
        stage + 1 < cfg.maxStages ∧
        cfg.profitTriggerPct.getD (stage + 1) 0 ≤ profitPctOf avgEntry price)) ∧
    (∀ st q, checkPyramidOpportunity cfg orderIsBuy avgEntry qty stage price =
        some (st, q) →
      st = stage + 1 ∧
      q = max 1 ⌊(qty : ℚ) * cfg.stageRatios.getD (stage + 1) 0⌋) ∧
    (profitPctOf avgEntry price ≤ 0 →
      checkPyramidOpportunity cfg orderIsBuy avgEntry qty stage price =
        Option.none) := by
  have hguard : ¬ (avgEntry ≤ 0 ∨ qty ≤ 0) := by
    push_neg
    exact ⟨hae, hq⟩
  have hflr : intTrunc ((qty : ℚ) * cfg.stageRatios.getD (stage + 1) 0) =
      ⌊(qty : ℚ) * cfg.stageRatios.getD (stage + 1) 0⌋ :=
    intTrunc_of_nonneg (mul_nonneg (by positivity)
      (getD_nonneg_of_forall hrat _))
  cases orderIsBuy with
  | false =>
    have hnone : checkPyramidOpportunity cfg false avgEntry qty stage price =
        Option.none := by
      simp [checkPyramidOpportunity]
    refine ⟨?_, ?_, fun _ => hnone⟩
    · rw [hnone]
      simp
    · intro st q h
      rw [hnone] at h
      exact absurd h (by simp)
  | true =>
    by_cases hp : profitPctOf avgEntry price ≤ 0
    · have hnone : checkPyramidOpportunity cfg true avgEntry qty stage price =
          Option.none := by
        simp [checkPyramidOpportunity, hguard, hp]
      refine ⟨?_, ?_, fun _ => hnone⟩
      · rw [hnone]
        constructor
        · intro hsome
          simp at hsome
        · rintro ⟨-, hpos, -, -⟩
          linarith
      · intro st q h
        rw [hnone] at h
        exact absurd h (by simp)
    · by_cases hs : cfg.maxStages ≤ stage + 1
      · have hnone : checkPyramidOpportunity cfg true avgEntry qty stage
            price = Option.none := by
          simp [checkPyramidOpportunity, hguard, hp, hs]
        refine ⟨?_, ?_, fun h => absurd h hp⟩
        · rw [hnone]
          constructor
          · intro hsome
            simp at hsome
          · rintro ⟨-, -, hlt, -⟩
            omega
        · intro st q h
          rw [hnone] at h
          exact absurd h (by simp)
      · by_cases htr : profitPctOf avgEntry price <
            cfg.profitTriggerPct.getD (stage + 1) 0
        · have hnone : checkPyramidOpportunity cfg true avgEntry qty stage
              price = Option.none := by
            rw [checkPyramidOpportunity]
            simp only [Bool.not_true, Bool.false_eq_true, if_false]
            rw [if_neg hguard, if_neg hp, if_neg hs, if_pos htr]
          refine ⟨?_, ?_, fun h => absurd h hp⟩
          · rw [hnone]
            constructor
            · intro hsome
              simp at hsome
            · rintro ⟨-, -, -, hge⟩
              linarith
          · intro st q h
            rw [hnone] at h
            exact absurd h (by simp)
        · have hsome : checkPyramidOpportunity cfg true avgEntry qty stage
              price = some (stage + 1,
                max 1 (intTrunc ((qty : ℚ) *
                  cfg.stageRatios.getD (stage + 1) 0))) := by
            rw [checkPyramidOpportunity]
            simp only [Bool.not_true, Bool.false_eq_true, if_false]
            rw [if_neg hguard, if_neg hp, if_neg hs, if_neg htr]
          refine ⟨?_, ?_, fun h => absurd h hp⟩
          · rw [hsome]
            simp only [Option.isSome_some, true_iff]
            exact ⟨by trivial, lt_of_not_le hp, by omega, le_of_not_lt htr⟩
          · intro st q h
            rw [hsome] at h
            injection h with h
            have h1 := congrArg Prod.fst h
            have h2 := congrArg Prod.snd h
            simp only at h1 h2
            exact ⟨h1.symm, by rw [← h2, hflr]⟩

/-- Witness for C7 at concrete inputs with the default config: a BUY position
entered at 100 now at 106 (profit 6% ≥ stage-1 trigger 5%) gets a stage-1
add-on of `max(1, floor(10*0.3)) = 3` shares; the same position at 90 (a
loss) gets none. -/
theorem C7_pyramid_opportunity_witness :
    (∀ st q, checkPyramidOpportunity defaultPyramidConfig true 100 10 0 106 =
        some (st, q) →
      st = 0 + 1 ∧
      q = max 1 ⌊(10 : ℚ) *
        defaultPyramidConfig.stageRatios.getD (0 + 1) 0⌋) ∧
    checkPyramidOpportunity defaultPyramidConfig true 100 10 0 90 =
      Option.none :=
  ⟨(C7_pyramid_opportunity defaultPyramidConfig true 100 10 0 106
      (by norm_num) (by norm_num)
      (by norm_num [defaultPyramidConfig])).2.1,
   (C7_pyramid_opportunity defaultPyramidConfig true 100 10 0 90
      (by norm_num) (by norm_num)
      (by norm_num [defaultPyramidConfig])).2.2
      (by norm_num [profitPctOf])⟩

/-! ## Daily kill switch (`kats/risk/daily_kill_switch.py`) -/

/-- `DailyKillSwitch` state (callbacks and bookkeeping timestamps are not
modelled). -/
structure KillState where
  dailyLossLimitPct : ℚ
  startingCapital : ℤ
  isKilled : Bool
deriving DecidableEq, Repr

/-- `daily_pnl_pct = (current_capital - starting_capital) / starting_capital`. -/
def pnlPctOf (s : KillState) (currentCapital : ℤ) : ℚ :=
  ((currentCapital : ℚ) - (s.startingCapital : ℚ)) / (s.startingCapital : ℚ)

/-- `DailyKillSwitch.check`.  On a breach the source schedules
`_emergency_shutdown()` (which sets the killed flag, cancels orders and
notifies) with `asyncio.ensure_future`; it is modelled as completing before
the next `check` call, per the module contract that a breach blocks all
subsequent orders. -/
def killCheck (s : KillState) (currentCapital : ℤ) : Bool × KillState :=
  if s.isKilled then (false, s)
  else if s.startingCapital ≤ 0 then (true, s)
  else if pnlPctOf s currentCapital ≤ -s.dailyLossLimitPct then
    (false, { s with isKilled := true })
  else (true, s)

/-- `DailyKillSwitch.reset_daily`. -/
def resetDaily (s : KillState) (newStartingCapital : ℤ) : KillState :=
  { s with isKilled := false, startingCapital := newStartingCapital }

/-- A sequence of `check` calls, collecting the returned booleans. -/
def runChecks (s : KillState) : List ℤ → List Bool × KillState
  | [] => ([], s)
  | c :: rest =>
    let r := killCheck s c
    let rr := runChecks r.2 rest
    (r.1 :: rr.1, rr.2)

/-- C8.  With positive starting capital and the switch not killed, `check`
returns True exactly while the daily PnL fraction is above `-limit`; a breach
makes the state killed; a killed switch returns False on every subsequent
check (leaving the state killed) until `reset_daily` clears the flag. -/
theorem C8_kill_switch_latch (s : KillState) (c : ℤ)
    (hnk : s.isKilled = false) (hsc : 0 < s.startingCapital) :
    ((killCheck s c).1 = true ↔ -s.dailyLossLimitPct < pnlPctOf s c) ∧
    (pnlPctOf s c ≤ -s.dailyLossLimitPct →
      (killCheck s c).1 = false ∧ (killCheck s c).2.isKilled = true) ∧
    (∀ (s' : KillState), s'.isKilled = true → ∀ cs : List ℤ,
      (∀ b ∈ (runChecks s' cs).1, b = false) ∧ (runChecks s' cs).2 = s') ∧
    (∀ (s' : KillState) (n : ℤ), (resetDaily s' n).isKilled = false) := by
  have hsc' : ¬ s.startingCapital ≤ 0 := not_le.mpr hsc
  refine ⟨?_, ?_, ?_, ?_⟩
  · by_cases hb : pnlPctOf s c ≤ -s.dailyLossLimitPct
    · have hres : (killCheck s c).1 = false := by
        simp [killCheck, hnk, hsc', hb]
      rw [hres]
      constructor
      · intro hh
        exact absurd hh (by simp)
      · intro hlt
        linarith
    · have hres : (killCheck s c).1 = true := by
        simp [killCheck, hnk, hsc', hb]
      rw [hres]
      constructor
      · intro _
        exact lt_of_not_le hb
      · intro _
        rfl
  · intro hb
    constructor <;> simp [killCheck, hnk, hsc', hb]
  · intro s' hk cs
    induction cs generalizing s' with
    | nil => simp [runChecks]
    | cons c' rest ih =>
      have hstep : killCheck s' c' = (false, s') := by
        simp [killCheck, hk]
      have hrec := ih s' hk
      refine ⟨?_, ?_⟩
      · intro b hb
        simp only [runChecks, hstep, List.mem_cons] at hb
        rcases hb with rfl | hb
        · rfl
        · exact hrec.1 b hb
      · simp only [runChecks, hstep]
        exact hrec.2
  · intro s' n
    rfl

/-- Witness for C8 at concrete inputs: a 4% loss on 1,000,000 KRW starting
capital with a 3% limit returns False and kills the switch; a killed switch
keeps returning False even on recovered capital; `reset_daily` clears it. -/
theorem C8_kill_switch_latch_witness :
    (killCheck ⟨3/100, 1000000, false⟩ 960000).1 = false ∧
    (killCheck ⟨3/100, 1000000, false⟩ 960000).2.isKilled = true ∧
    (∀ b ∈ (runChecks ⟨3/100, 1000000, true⟩ [2000000, 900000]).1,
      b = false) ∧
    (resetDaily ⟨3/100, 1000000, true⟩ 5000000).isKilled = false := by
  have h := C8_kill_switch_latch ⟨3/100, 1000000, false⟩ 960000 rfl
    (by norm_num)
  have hb : pnlPctOf ⟨3/100, 1000000, false⟩ 960000 ≤ -(3/100 : ℚ) := by
    norm_num [pnlPctOf]
  exact ⟨(h.2.1 hb).1, (h.2.1 hb).2,
    (h.2.2.1 ⟨3/100, 1000000, true⟩ rfl [2000000, 900000]).1,
    h.2.2.2 ⟨3/100, 1000000, true⟩ 5000000⟩

/-- C10.  A not-killed switch whose starting capital is ≤ 0 returns True from
`check` for every current capital, leaving the state unchanged: no daily loss
can trip the switch until a positive starting capital is set. -/
theorem C10_check_without_capital (s : KillState) (c : ℤ)
    (hnk : s.isKilled = false) (hsc : s.startingCapital ≤ 0) :
    killCheck s c = (true, s) := by
  simp [killCheck, hnk, hsc]

/-- Witness for C10 at a concrete input: starting capital 0, current capital
-500 — check still passes. -/
theorem C10_check_without_capital_witness :
    killCheck ⟨3/100, 0, false⟩ (-500) = (true, ⟨3/100, 0, false⟩) :=
  C10_check_without_capital ⟨3/100, 0, false⟩ (-500) rfl (by norm_num)

end Kats
